import Mathlib

/-!
Verification development for the pypage templating engine (pypage2.py).

The definitions below are a shallow embedding of the engine's source:
the lexer `lex`, the tag classifier (`first_true` over the `identify`
predicates of ForTag, CloseTag, WhileTag, CommentTag), the for-tag target
extraction `ForTag._find_targets`, the tree builder `build_tree`, and the
execution engine `exec_tree` / `PypageExec` with its tag runtime handlers.
The embedded expression evaluator (Python `eval` / `exec`) is external to
the engine and is modelled as an explicit `Evaluator` record of functions;
theorems quantify over it or instantiate small concrete demo evaluators.

Machine-level conventions of the embedding:
  - Python strings are Lean `String`s; character scanning works on `.data`.
  - Python dicts (the environment) are association lists with unique keys,
    written and read through `envSet` / `envLookup` / `envDel`.
  - Python exceptions become `Except` results; since Python exceptions do
    not roll back in-place mutation of the environment, every error value
    carries the environment as it stood when the exception was raised.
  - Unbounded loops (the lexer scan, `while` tags, the generator loop) are
    driven by an explicit fuel parameter so that every definition is a
    computable total function; fuel exhaustion is a distinguished error
    that faithful callers never hit (the lexer needs at most one unit of
    fuel per character).
-/

/-- Python `str.strip` whitespace set: space, tab, newline, CR, VT, FF. -/
def pyIsSpace (c : Char) : Bool :=
  c == ' ' || c == '\t' || c == '\n' || c == '\r' || c == '\x0b' || c == '\x0c'

/-- Python `str.strip()`: drop leading and trailing whitespace. -/
def pyStrip (s : String) : String :=
  ⟨((s.data.dropWhile pyIsSpace).reverse.dropWhile pyIsSpace).reverse⟩

/-- Python `str.startswith`. -/
def pyStartsWith (s pre : String) : Bool :=
  pre.data.isPrefixOf s.data

/-- Python `str.endswith`. -/
def pyEndsWith (s suf : String) : Bool :=
  suf.data.isSuffixOf s.data

/-- Python `c in s` for a single character. -/
def strContains (s : String) (c : Char) : Bool :=
  s.data.contains c

/-- Helper for `pySplitWs`: accumulate the current word (reversed). -/
def wordsAux : List Char → List Char → List String
  | [], [] => []
  | [], w => [⟨w.reverse⟩]
  | c :: cs, w =>
      if pyIsSpace c then
        (if w.isEmpty then wordsAux cs [] else ⟨w.reverse⟩ :: wordsAux cs [])
      else wordsAux cs (c :: w)

/-- Python `str.split()` with no argument: split on whitespace runs,
discarding empty pieces. -/
def pySplitWs (s : String) : List String :=
  wordsAux s.data []

/-- Helper for `splitCommas`. -/
def splitCommasAux : List Char → List Char → List String
  | [], w => [⟨w.reverse⟩]
  | c :: cs, w =>
      if c == ',' then ⟨w.reverse⟩ :: splitCommasAux cs []
      else splitCommasAux cs (c :: w)

/-- Python `s.split(',')`: keeps empty pieces, `''` gives `['']`. -/
def splitCommas (s : String) : List String :=
  splitCommasAux s.data []

/-- Python 2 `str.isalnum` per character (ASCII letters and digits). -/
def pyIsAlnum (c : Char) : Bool :=
  c.isAlpha || c.isDigit

/-- The inner comprehension of `_find_targets`:
`''.join(c for c in s if c.isalnum() or c=='_')`. -/
def keepIdentChars (s : String) : String :=
  ⟨s.data.filter (fun c => pyIsAlnum c || c == '_')⟩

/-- `isidentifier` from pypage2.py: nonempty, first char a letter or
underscore, all chars alphanumeric or underscore. -/
def isidentifier (s : String) : Bool :=
  match s.data with
  | [] => false
  | c :: _ => (c.isAlpha || c == '_') && s.data.all (fun c => pyIsAlnum c || c == '_')

/-- Python `''.join(xs)`. -/
def joinAll (xs : List String) : String :=
  xs.foldl (fun a b => a ++ b) ""

/-- Python `sep.join(xs)`. -/
def joinSep (sep : String) : List String → String
  | [] => ""
  | [x] => x
  | x :: xs => x ++ sep ++ joinSep sep xs

/-- Insert into a sorted, duplicate-free list of strings. -/
def insertSorted (x : String) : List String → List String
  | [] => [x]
  | y :: ys =>
      if x == y then y :: ys
      else if x < y then x :: y :: ys
      else y :: insertSorted x ys

/-- `tuple(sorted(set(l)))`: sort and remove duplicates. -/
def sortedDedup (l : List String) : List String :=
  l.foldl (fun a x => insertSorted x a) []

/-- One pass of the `while tokens:` loop of `ForTag._find_targets`:
locate the first `for` token and the first `in` token, join the tokens
strictly between them, split on commas, strip each piece down to its
identifier characters, keep valid identifiers, and continue after `in`.
Fuel bounds the number of passes (each pass drops at least one token). -/
def ftLoop : Nat → List String → List String → List String
  | 0, _, acc => acc
  | f + 1, tokens, acc =>
      if tokens.isEmpty then acc
      else
        match tokens.findIdx? (fun t => t == ("for")), tokens.findIdx? (fun t => t == ("in")) with
        | some fi, some ii =>
            let tls := joinAll ((tokens.drop (fi + 1)).take (ii - (fi + 1)))
            let pieces := splitCommas tls
            let ids := (pieces.map keepIdentChars).filter isidentifier
            ftLoop f (tokens.drop (ii + 1)) (acc ++ ids)
        | _, _ => acc

/-- `ForTag._find_targets` on the stripped tag body: the union of all
identifiers found between `for` and `in` tokens, sorted and deduplicated
(the source stores them as `tuple(sorted(targets))`). An empty result is
the condition under which the source executes `raise IncorrectForTag`. -/
def findTargets (src : String) : List String :=
  let toks := pySplitWs src
  sortedDedup (ftLoop (toks.length + 1) toks [])

/-- `ForTag._construct_generator_expression`:
`"((%s) %s)" % (', '.join(self.targets), self.src)`. -/
def mkGenexpr (ts : List String) (src : String) : String :=
  "((" ++ joinSep (", ") ts ++ ") " ++ src ++ ")"

/-- The `dofirst` / `slow` modifier parse of `WhileTag.__init__`, applied
to the stripped tag body; returns (condition expression, dofirst, slow). -/
def parseWhile (src' : String) : String × Bool × Bool :=
  let e0 := pyStrip ⟨src'.data.drop 6⟩
  let p1 := if pyStartsWith e0 ("dofirst ") then (pyStrip ⟨e0.data.drop 8⟩, true) else (e0, false)
  let p2 :=
    if pyEndsWith p1.1 ("slow") then
      (pyStrip ⟨p1.1.data.take (p1.1.data.length - 4)⟩, true)
    else (p1.1, false)
  (p2.1, p1.2, p2.2)

/-- The closed set of tag variants, in the classifier's priority order. -/
inductive TagCase
  | forC
  | closeC
  | whileC
  | commentC
deriving DecidableEq

/-- `ForTag.identify`: `src.strip().startswith('for ')`. -/
def forIdentify (s : String) : Bool :=
  pyStartsWith (pyStrip s) ("for ")

/-- `CloseTag.identify`: `not src.strip()` — the stripped body is empty. -/
def closeIdentify (s : String) : Bool :=
  (pyStrip s).data.isEmpty

/-- `WhileTag.identify`: `src.strip().startswith('while ')`. -/
def whileIdentify (s : String) : Bool :=
  pyStartsWith (pyStrip s) ("while ")

/-- `CommentTag.identify`: `src.strip().startswith('comment')`. -/
def commentIdentify (s : String) : Bool :=
  pyStartsWith (pyStrip s) ("comment")

/-- `first_true` from pypage2.py: first element satisfying the predicate. -/
def firstTrue (f : α → Bool) : List α → Option α
  | [] => none
  | x :: xs => if f x then some x else firstTrue f xs

/-- The list `tagNodeTypes = [ForTag, CloseTag, WhileTag, CommentTag]`. -/
def tagCases : List TagCase :=
  [.forC, .closeC, .whileC, .commentC]

/-- Dispatch of `identify` per tag class. -/
def caseIdentify : TagCase → String → Bool
  | .forC => forIdentify
  | .closeC => closeIdentify
  | .whileC => whileIdentify
  | .commentC => commentIdentify

/-- The classifier in `lex`:
`first_true(lambda t: t.identify(node.src), tagNodeTypes)`. -/
def classifyTag (s : String) : Option TagCase :=
  firstTrue (fun t => caseIdentify t s) tagCases

/-- Constructor-time data of a tag variant. -/
inductive TagKind
  | forK (targets : List String) (genexpr : String)
  | whileK (expr : String) (dofirst : Bool) (slow : Bool)
  | commentK
deriving DecidableEq

/-- Nodes of the token stream and of the tree. In the source these are the
same objects: `lex` emits TextNode / CodeNode / tag instances (with empty
children), and `build_tree` appends tokens as children of open tags.
Close tags are a separate constructor; `build_tree` must never retain one. -/
inductive PNode
  | text (src : String)
  | code (src : String) (loc : Nat × Nat)
  | tag (kind : TagKind) (src : String) (loc : Nat × Nat) (children : List PNode)
  | close (src : String) (loc : Nat × Nat)

/-- The structural (lex/parse) error taxonomy. `incorrectForTag` marks the
`raise IncorrectForTag` site in `_find_targets` (see the C2 analysis: the
source raises the class without the `node` argument its constructor
requires, so Python 2 actually surfaces a TypeError there).
`fuelExhausted` is a model artifact that an adequately fueled run never
produces. -/
inductive SynErr
  | incompleteDelimitedNode (isTag : Bool) (loc : Nat × Nat)
  | multiLineTag (src : String) (loc : Nat × Nat)
  | unknownTag (src : String) (loc : Nat × Nat)
  | incorrectForTag (src : String)
  | unboundCloseTag (node : PNode)
  | unclosedTag (node : PNode)
  | fuelExhausted

/-- Finalization of a tag node at its closing delimiter (lex lines
369-378): multi-line check, then classification, then construction of the
specific tag object (ForTag / CloseTag / WhileTag / CommentTag `__init__`). -/
def finalizeTag (s : String) (loc : Nat × Nat) : Except SynErr PNode :=
  if strContains s '\n' then .error (.multiLineTag s loc)
  else
    match classifyTag s with
    | some .forC =>
        if (findTargets (pyStrip s)).isEmpty then .error (.incorrectForTag (pyStrip s))
        else
          .ok (.tag (.forK (findTargets (pyStrip s)) (mkGenexpr (findTargets (pyStrip s)) (pyStrip s)))
            (pyStrip s) loc [])
    | some .closeC => .ok (.close s loc)
    | some .whileC =>
        .ok (.tag (.whileK (parseWhile (pyStrip s)).1 (parseWhile (pyStrip s)).2.1
          (parseWhile (pyStrip s)).2.2) (pyStrip s) loc [])
    | some .commentC => .ok (.tag .commentK (pyStrip s) loc [])
    | none => .error (.unknownTag s loc)

/-- The node currently being accumulated by the lexer. -/
inductive CurNode
  | textC (src : String)
  | codeC (src : String) (loc : Nat × Nat)
  | tagC (src : String) (loc : Nat × Nat)
deriving DecidableEq

/-- Append one character to the current node's body. -/
def curPush : CurNode → Char → CurNode
  | .textC s, c => .textC (s.push c)
  | .codeC s l, c => .codeC (s.push c) l
  | .tagC s l, c => .tagC (s.push c) l

/-- The lexer's scan state: index, line counter, index of the last
newline (`line_i`, 0 before any newline), current node, emitted tokens. -/
structure LexState where
  i : Nat
  line : Nat
  line_i : Nat
  node : Option CurNode
  tokens : List PNode

/-- The character at index `i`, with a space as the out-of-range default
(the scan loop's bounds make the default unobservable). -/
def chAt : List Char → Nat → Char
  | [], _ => ' '
  | c :: _, 0 => c
  | _ :: cs, n + 1 => chAt cs n

/-- The updated line counter after the newline check at the top of one
`lex` iteration (`if c == '\n': line += 1`). -/
def lineAfter (src : List Char) (st : LexState) : Nat :=
  if chAt src st.i == '\n' then st.line + 1 else st.line

/-- The updated last-newline index after the newline check
(`if c == '\n': line_i = i`). -/
def lineIAfter (src : List Char) (st : LexState) : Nat :=
  if chAt src st.i == '\n' then st.i else st.line_i

/-- Open-delimiter detection for the current window: a fresh CodeNode or
TagNode carrying `(line, c_pos_in_line)`, or `none`. -/
def openDelimNode (src : List Char) (st : LexState) : Option CurNode :=
  if chAt src st.i == '\x7b' && chAt src (st.i + 1) == '\x7b' then
    some (.codeC ("") (lineAfter src st, st.i - lineIAfter src st))
  else if chAt src st.i == '\x7b' && chAt src (st.i + 1) == '%' then
    some (.tagC ("") (lineAfter src st, st.i - lineIAfter src st))
  else none

/-- The tail of one loop iteration of `lex` (lines 385-395), shared by all
fall-through paths: escape handling for `\x7b` and `\x7d`, then ordinary
character accumulation (two characters at once on the final window). -/
def stepRest (src : List Char) (st : LexState) (cur : CurNode) : LexState :=
  if chAt src st.i == '\\'
      && (chAt src (st.i + 1) == '\x7b' || chAt src (st.i + 1) == '\x7d') then
    ⟨st.i + 2, lineAfter src st, lineIAfter src st,
      some (curPush cur (chAt src (st.i + 1))), st.tokens⟩
  else if st.i + 2 < src.length then
    ⟨st.i + 1, lineAfter src st, lineIAfter src st,
      some (curPush cur (chAt src st.i)), st.tokens⟩
  else
    ⟨st.i + 2, lineAfter src st, lineIAfter src st,
      some (curPush (curPush cur (chAt src st.i)) (chAt src (st.i + 1))), st.tokens⟩

/-- One iteration of the `while i < len(src) - 1` loop of `lex`:
newline/position bookkeeping, open-delimiter detection when outside a
delimited node, close-delimiter detection (with tag finalization) inside
one, then the shared fall-through `stepRest`. -/
def lexStep (src : List Char) (st : LexState) : Except SynErr LexState :=
  match st.node, openDelimNode src st with
  | none, some nd =>
      .ok ⟨st.i + 2, lineAfter src st, lineIAfter src st, some nd, st.tokens⟩
  | some (.textC s), some nd =>
      .ok ⟨st.i + 2, lineAfter src st, lineIAfter src st, some nd, st.tokens ++ [.text s]⟩
  | some (.codeC s loc), _ =>
      if chAt src st.i == '\x7d' && chAt src (st.i + 1) == '\x7d' then
        .ok ⟨st.i + 2, lineAfter src st, lineIAfter src st, none, st.tokens ++ [.code s loc]⟩
      else .ok (stepRest src st (.codeC s loc))
  | some (.tagC s loc), _ =>
      if chAt src st.i == '%' && chAt src (st.i + 1) == '\x7d' then
        match finalizeTag s loc with
        | .error e => .error e
        | .ok t => .ok ⟨st.i + 2, lineAfter src st, lineIAfter src st, none, st.tokens ++ [t]⟩
      else .ok (stepRest src st (.tagC s loc))
  | none, none => .ok (stepRest src st (.textC ("")))
  | some (.textC s), none => .ok (stepRest src st (.textC s))

/-- End-of-scan handling of `lex` (lines 397-402): flush a pending text
node; a pending delimited node raises `IncompleteDelimitedNode`. -/
def lexFinish (st : LexState) : Except SynErr (List PNode)  :=
  match st.node with
  | none => .ok st.tokens
  | some (.textC s) => .ok (st.tokens ++ [.text s])
  | some (.codeC _ loc) => .error (.incompleteDelimitedNode false loc)
  | some (.tagC _ loc) => .error (.incompleteDelimitedNode true loc)

/-- The fueled scan loop of `lex`. Each iteration advances `i` by at least
one, so fuel `src.length + 1` always suffices. -/
def lexLoop (src : List Char) : Nat → LexState → Except SynErr (List PNode)
  | 0, _ => .error .fuelExhausted
  | f + 1, st =>
      if st.i < src.length - 1 then
        match lexStep src st with
        | .error e => .error e
        | .ok st' => lexLoop src f st'
      else lexFinish st

/-- `lex(src)`: scan from the initial state `i = 0, line = 1, line_i = 0`. -/
def lexRun (s : String) : Except SynErr (List PNode) :=
  lexLoop s.data (s.data.length + 1) ⟨0, 1, 0, none, []⟩

/-- Append a finished node to the current parent: the top open tag's
children when the stack is nonempty, the root accumulator otherwise.
Both lists are kept reversed while building. -/
def pushChild (x : PNode) :
    List (PNode × List PNode) → List PNode → List (PNode × List PNode) × List PNode
  | [], acc => ([], x :: acc)
  | (op, kids) :: st, acc => ((op, x :: kids) :: st, acc)

/-- Install the collected children into a completed tag node. -/
def setChildren : PNode → List PNode → PNode
  | .tag k s l _, ch => .tag k s l ch
  | n, _ => n

/-- `build_tree`, defunctionalized: the recursion of the source (recurse
into every tag token, return on a close) becomes an explicit stack of open
tags. A close with an empty stack is `UnboundCloseTag` (close at root); an
exhausted stream with a nonempty stack is `UnclosedTag`, citing the
innermost open tag exactly as the source's deepest recursive call does. -/
def buildAux : List PNode → List (PNode × List PNode) → List PNode → Except SynErr (List PNode)
  | [], [], acc => .ok acc.reverse
  | [], (op, _) :: _, _ => .error (.unclosedTag op)
  | .close s l :: _, [], _ => .error (.unboundCloseTag (.close s l))
  | .close _ _ :: rest, (op, kids) :: st, acc =>
      let pa := pushChild (setChildren op kids.reverse) st acc
      buildAux rest pa.1 pa.2
  | .tag k s l ch :: rest, st, acc => buildAux rest ((.tag k s l ch, ch.reverse) :: st) acc
  | .text s :: rest, st, acc =>
      let pa := pushChild (.text s) st acc
      buildAux rest pa.1 pa.2
  | .code s l :: rest, st, acc =>
      let pa := pushChild (.code s l) st acc
      buildAux rest pa.1 pa.2

/-- `parse(src)`: lex, then build the tree (the root's children). -/
def parseTemplate (s : String) : Except SynErr (List PNode) :=
  match lexRun s with
  | .error e => .error e
  | .ok toks => buildAux toks [] []

/-- Runtime values handled by the embedded evaluator. `gen` is an
already-materialized iterator: the sequence of values its successive
`next()` calls yield before raising StopIteration. -/
inductive PyVal
  | int (n : Int)
  | str (s : String)
  | list (xs : List PyVal)
  | noneV
  | gen (items : List PyVal)
  | special (tag : String)

/-- Runtime (evaluation) errors. `stopIteration`, `keyError` and
`typeError` arise structurally; `evalError` / `nameError` stand for
arbitrary evaluator-defined exceptions; `fuelOut` is the model's fuel
artifact; `notImplemented` is the `TagNode.run` fallback exception. -/
inductive PyErr
  | stopIteration
  | keyError (k : String)
  | nameError (k : String)
  | typeError
  | evalError (msg : String)
  | notImplemented
  | fuelOut
deriving DecidableEq

/-- Python `str(value)` as used for expression output. -/
def pyStr : PyVal → String
  | .int n => toString n
  | .str s => s
  | .list _ => "[list]"
  | .noneV => "None"
  | .gen _ => "[generator]"
  | .special t => t

/-- Python truthiness, for `while` conditions. -/
def pyTruthy : PyVal → Bool
  | .int n => n != 0
  | .str s => s != ("")
  | .list xs => !xs.isEmpty
  | .noneV => false
  | .gen _ => true
  | .special _ => true

/-- The environment: a Python dict modelled as an association list with
unique keys. -/
abbrev Env := List (String × PyVal)

/-- Dict lookup. -/
def envLookup : Env → String → Option PyVal
  | [], _ => none
  | (k, v) :: r, key => if k == key then some v else envLookup r key

/-- Dict membership. -/
def envHas (e : Env) (k : String) : Bool :=
  (envLookup e k).isSome

/-- Dict assignment: replace the existing binding or append a new one. -/
def envSet : Env → String → PyVal → Env
  | [], key, v => [(key, v)]
  | (k, w) :: r, key, v => if k == key then (k, v) :: r else (k, w) :: envSet r key v

/-- `dict.update` with a list of pairs. -/
def envUpdate (e : Env) (pairs : List (String × PyVal)) : Env :=
  pairs.foldl (fun a p => envSet a p.1 p.2) e

/-- Python `del d[k]`: `none` when the key is absent (KeyError). -/
def envDel : Env → String → Option Env
  | [], _ => none
  | (k, v) :: r, key =>
      if k == key then some r
      else
        match envDel r key with
        | none => none
        | some r' => some ((k, v) :: r')

/-- The cleanup loop `for target in self.targets: del pe.env[target]` of
`ForTag.run`. A missing key raises KeyError with the partially-deleted
environment (deletions already performed are not rolled back). -/
def delAll : List String → Env → Except (PyErr × Env) Env
  | [], env => .ok env
  | t :: ts, env =>
      match envDel env t with
      | none => .error (.keyError t, env)
      | some env' => delAll ts env'

/-- `zip(self.targets, next(gen))` followed by the dict comprehension of
`ForTag.run`: pair target names with the yielded value's elements.
Python `zip` truncates to the shorter sequence and raises TypeError when
the second argument is not iterable (ints, None, ...). -/
def zipTargets (ts : List String) (item : PyVal) : Except PyErr (List (String × PyVal)) :=
  match item with
  | .list vs => .ok (ts.zip vs)
  | .gen vs => .ok (ts.zip vs)
  | .str s => .ok (ts.zip (s.data.map (fun c => .str ⟨[c]⟩)))
  | _ => .error .typeError

/-- The external evaluator capability (Python `eval` / `exec` on the
shared environment). `eval` models `PypageExec.raw_eval` and the
expression branch of `PypageExec.run`; `exec` models the statement branch
(its string result is the accumulated `write` output); `timeUp` models
the readings of `time.time()` in `WhileTag.run` (whether the 2-second
budget is exceeded after a given iteration). Errors carry the environment
at the point of raising. -/
structure Evaluator where
  eval : String → Env → Except (PyErr × Env) (PyVal × Env)
  exec : String → Env → Except (PyErr × Env) (String × Env)
  timeUp : Nat → Bool

/-- `PypageExec.run`: a body with a newline or semicolon is executed as a
statement block (output is what `write` produced), anything else is
evaluated as an expression and stringified. -/
def peRun (E : Evaluator) (code : String) (env : Env) : Except (PyErr × Env) (String × Env) :=
  if strContains code '\n' || strContains code ';' then E.exec code env
  else
    match E.eval code env with
    | .error r => .error r
    | .ok (v, env') => .ok (pyStr v, env')

/-- Work items of the execution engine: a child list (`exec_tree`), a
single node, the iteration loop of `ForTag.run`, or the loop of
`WhileTag.run` (with its iteration counter for the time checks). -/
inductive Job
  | nodes (ns : List PNode)
  | node1 (n : PNode)
  | floop (ts : List String) (ch : List PNode) (items : List PyVal)
  | wloop (ex : String) (sl : Bool) (ch : List PNode) (k : Nat)

/-- The execution engine: `exec_tree` plus the `run` methods of the tag
classes, combined into one fueled recursion (fuel strictly decreases on
every recursive call, so the function is structurally total; any concrete
execution only needs fuel proportional to the work it performs).
  - `.nodes`: `exec_tree`, concatenating text, code output and tag output.
  - `.node1` on a for tag: `ForTag.run` — back up conflicting bindings,
    evaluate the generator expression, run the loop, then delete the
    targets and restore the backups.
  - `.floop`: the `while True/next(gen)` loop: bind the zipped targets,
    execute the children, append their output; a StopIteration escaping
    the body is caught by the same `except StopIteration` and breaks the
    loop (the environment keeps the mutations made before the raise).
  - `.node1` on a while tag / `.wloop`: `WhileTag.run` with its `dofirst`
    prelude and non-`slow` time-limit break.
  - `.node1` on a comment tag: `CommentTag.run`, empty output, untouched
    environment, no evaluator call.
  - `.node1` on a close tag: the unimplemented `TagNode.run` fallback
    (unreachable from built trees). -/
def execAll (E : Evaluator) : Nat → Job → Env → Except (PyErr × Env) (String × Env)
  | 0, _, env => .error (.fuelOut, env)
  | f + 1, .nodes ns, env =>
      match ns with
      | [] => .ok ("", env)
      | n :: rest =>
          match execAll E f (.node1 n) env with
          | .error r => .error r
          | .ok (o1, env1) =>
              match execAll E f (.nodes rest) env1 with
              | .error r => .error r
              | .ok (o2, env2) => .ok (o1 ++ o2, env2)
  | f + 1, .node1 n, env =>
      match n with
      | .text s => .ok (s, env)
      | .code s _ => peRun E s env
      | .close _ _ => .error (.notImplemented, env)
      | .tag .commentK _ _ _ => .ok ("", env)
      | .tag (.forK ts ge) _ _ ch =>
          let conflicting := ts.filter (fun x => envHas env x)
          let backup := conflicting.map (fun x => (x, (envLookup env x).getD .noneV))
          match E.eval ge env with
          | .error r => .error r
          | .ok (v, env1) =>
              match v with
              | .gen items =>
                  match execAll E f (.floop ts ch items) env1 with
                  | .error r => .error r
                  | .ok (out, env2) =>
                      match delAll ts env2 with
                      | .error r => .error r
                      | .ok env3 => .ok (out, envUpdate env3 backup)
              | _ => .error (.typeError, env1)
      | .tag (.whileK ex df sl) _ _ ch =>
          if df then
            match execAll E f (.nodes ch) env with
            | .error r => .error r
            | .ok (o1, env1) =>
                match execAll E f (.wloop ex sl ch 0) env1 with
                | .error r => .error r
                | .ok (o2, env2) => .ok (o1 ++ o2, env2)
          else execAll E f (.wloop ex sl ch 0) env
  | f + 1, .floop ts ch items, env =>
      match items with
      | [] => .ok ("", env)
      | item :: rest =>
          match zipTargets ts item with
          | .error e => .error (e, env)
          | .ok pairs =>
              let env1 := envUpdate env pairs
              match execAll E f (.nodes ch) env1 with
              | .error (.stopIteration, envE) => .ok ("", envE)
              | .error r => .error r
              | .ok (o1, env2) =>
                  match execAll E f (.floop ts ch rest) env2 with
                  | .error r => .error r
                  | .ok (o2, env3) => .ok (o1 ++ o2, env3)
  | f + 1, .wloop ex sl ch k, env =>
      match E.eval ex env with
      | .error r => .error r
      | .ok (v, env1) =>
          if pyTruthy v then
            match execAll E f (.nodes ch) env1 with
            | .error r => .error r
            | .ok (o1, env2) =>
                if !sl && E.timeUp k then .ok (o1, env2)
                else
                  match execAll E f (.wloop ex sl ch (k + 1)) env2 with
                  | .error r => .error r
                  | .ok (o2, env3) => .ok (o1 ++ o2, env3)
          else .ok ("", env1)

/-- `exec_tree(parent_node, pe)`: execute a parent's children in order. -/
def exec_tree (E : Evaluator) (f : Nat) (children : List PNode) (env : Env) :
    Except (PyErr × Env) (String × Env) :=
  execAll E f (.nodes children) env

/-- The bindings installed by `PypageExec.__init__` on the environment it
is given: `__builtins__`, `__package__`, `__name__`, `__doc__`, `write`. -/
def peInit (env : Env) : Env :=
  envSet (envSet (envSet (envSet (envSet env ("__builtins__") (.special ("builtins")))
    ("__package__") .noneV) ("__name__") (.str ("pypage_transient")))
    ("__doc__") .noneV) ("write") (.special ("write"))

/-- Top-level errors: structural parse errors, or a runtime error with
the state the shared environment was left in. -/
inductive TemplateErr
  | syn (e : SynErr)
  | run (e : PyErr) (env : Env)

/-- `execute(src)`: parse, construct `PypageExec()` and run the tree.

`PypageExec.__init__` declares `env=dict()`: the default dict is created
once, at function-definition time, so every call of `execute` (which never
passes an environment) initializes and mutates that one shared mapping.
The embedding makes that shared mapping an explicit argument and returns
its final state next to the output: chaining `execute` calls by threading
this state is exactly the aliasing of the Python default argument. -/
def execute (E : Evaluator) (f : Nat) (src : String) (sharedEnv : Env) :
    Except TemplateErr (String × Env) :=
  match parseTemplate src with
  | .error e => .error (.syn e)
  | .ok tree =>
      match execAll E f (.nodes tree) (peInit sharedEnv) with
      | .error (e, env) => .error (.run e env)
      | .ok r => .ok r

/-- Is this token a close tag? -/
def isCloseTok : PNode → Bool
  | .close _ _ => true
  | _ => false

/-- Is this token an open (for/while/comment) tag node? -/
def isTagTok : PNode → Bool
  | .tag _ _ _ _ => true
  | _ => false

/-- Tokens as the lexer emits them: tag nodes carry no children yet. -/
def tokFlat : PNode → Bool
  | .tag _ _ _ ch => ch.isEmpty
  | _ => true

mutual

/-- A tree containing no close node anywhere (close markers are consumed
by `build_tree`, never retained). -/
def closeFree : PNode → Bool
  | .close _ _ => false
  | .tag _ _ _ ch => closeFreeL ch
  | _ => true

/-- `closeFree` over a list of children. -/
def closeFreeL : List PNode → Bool
  | [] => true
  | n :: ns => closeFree n && closeFreeL ns

end

/-- Number of close tokens in a stream. -/
def closeCount (l : List PNode) : Nat :=
  l.countP isCloseTok

/-- Number of open-tag tokens in a stream. -/
def tagCount (l : List PNode) : Nat :=
  l.countP isTagTok

/-- The position of a delimited token's opening delimiter, if any. -/
def tokLoc : PNode → Option (Nat × Nat)
  | .text _ => none
  | .code _ l => some l
  | .tag _ _ l _ => some l
  | .close _ l => some l

/-- The position stored in the lexer's in-progress node, if delimited. -/
def curLoc : CurNode → Option (Nat × Nat)
  | .textC _ => none
  | .codeC _ l => some l
  | .tagC _ l => some l

/-- Position `p` starts an escape pair: a backslash followed by a brace,
with both characters inside the source. -/
def escAt (src : List Char) (p : Nat) : Bool :=
  chAt src p == '\\'
    && (chAt src (p + 1) == '\x7b' || chAt src (p + 1) == '\x7d')
    && decide (p + 1 < src.length)

/-- Position `p` starts an opening delimiter pair. -/
def opensAt (src : List Char) (p : Nat) : Bool :=
  chAt src p == '\x7b'
    && (chAt src (p + 1) == '\x7b' || chAt src (p + 1) == '%')
    && decide (p + 1 < src.length)

/-- Number of newlines in a character list. -/
def nlCount (l : List Char) : Nat :=
  l.countP (fun c => c == '\n')

/-- Helper for `lastNl`: fold tracking the index of the last newline. -/
def lastNlAux : List Char → Nat → Nat → Nat
  | [], _, best => best
  | c :: cs, idx, best => lastNlAux cs (idx + 1) (if c == '\n' then idx else best)

/-- Index of the last newline in the list, or 0 when there is none —
exactly the value the lexer's `line_i` register holds after scanning it. -/
def lastNl (l : List Char) : Nat :=
  lastNlAux l 0 0

/-- The position the lexer attaches to a delimited node that opens at
character index `p`: 1-based line count, and column `p - line_i` where
`line_i` is the index of the last preceding newline (0 when none). -/
def posSpec (src : List Char) (p : Nat) : Nat × Nat :=
  (1 + nlCount (src.take p), p - lastNl (src.take p))

/-- Reachability between scan states of `lex`: zero or more successful
loop iterations with the loop guard `i < len(src) - 1` holding. -/
inductive LexReach (src : List Char) : LexState → LexState → Prop
  | refl (st : LexState) : LexReach src st st
  | step {a b c : LexState} : a.i < src.length - 1 → lexStep src a = .ok b →
      LexReach src b c → LexReach src a c

/-- A pair `(line, column)` is the position of some opening delimiter: it
is the position the lexer computes at the index `p` where a `\x7b\x7b` or
`\x7b%` pair begins. -/
def locOrigin (src : List Char) (l : Nat × Nat) : Prop :=
  ∃ p, opensAt src p = true ∧ l = posSpec src p

/-- The scan invariant of `lex`: while the loop is still running, `line`
is one plus the number of newlines already scanned and `line_i` is the
index of the last newline scanned (0 before any); and every position
attached to an emitted token or to the in-progress node originates from
an opening delimiter as described by `posSpec`. -/
def lexInv (src : List Char) (st : LexState) : Prop :=
  (st.i < src.length - 1 →
    st.line = 1 + nlCount (src.take st.i) ∧ st.line_i = lastNl (src.take st.i)) ∧
  (∀ t ∈ st.tokens, ∀ l, tokLoc t = some l → locOrigin src l) ∧
  (∀ cur, st.node = some cur → ∀ l, curLoc cur = some l → locOrigin src l)

/-- A statement-evaluation capability that always raises, for demo
evaluators whose templates contain no statement blocks. -/
def demoExecFail (s : String) (env : Env) : Except (PyErr × Env) (String × Env) :=
  .error (.evalError s, env)

/-- Demo evaluator for the empty-generator scenario: the generator
expression of `for i in []` evaluates to an exhausted iterator. -/
def demoE1 : Evaluator :=
  { eval := fun s env =>
      if s == ("((i) for i in [])") then .ok (.gen [], env)
      else .error (.nameError s, env),
    exec := demoExecFail,
    timeUp := fun _ => false }

/-- Demo evaluator for the StopIteration-in-body scenario: the generator
yields one tuple, and evaluating the body expression raises
StopIteration. -/
def demoE3 : Evaluator :=
  { eval := fun s env =>
      if s == ("((i) for i in gen)") then .ok (.gen [.list [.int 0]], env)
      else if s == (" boom ") then .error (.stopIteration, env)
      else .error (.nameError s, env),
    exec := demoExecFail,
    timeUp := fun _ => false }

/-- Demo evaluator for the shared-environment scenario: expressions are
environment lookups of the stripped name, and the statement block
`x = 5;` binds `x`. -/
def demoE10 : Evaluator :=
  { eval := fun s env =>
      match envLookup env (pyStrip s) with
      | some v => .ok (v, env)
      | none => .error (.nameError (pyStrip s), env),
    exec := fun s env =>
      if s == ("x = 5;") then .ok ("", envSet env ("x") (.int 5))
      else .error (.evalError s, env),
    timeUp := fun _ => false }

theorem stepRest_tokens (src : List Char) (st : LexState) (cur : CurNode) :
    (stepRest src st cur).tokens = st.tokens := by
  unfold stepRest
  split
  · rfl
  · split <;> rfl

theorem finalizeTag_flat (s : String) (loc : Nat × Nat) (t : PNode)
    (h : finalizeTag s loc = .ok t) : tokFlat t = true := by
  unfold finalizeTag at h
  split at h
  · exact absurd h (by simp)
  · split at h
    · split at h
      · exact absurd h (by simp)
      · cases h; rfl
    · cases h; rfl
    · cases h; rfl
    · cases h; rfl
    · exact absurd h (by simp)

theorem lexStep_tokens (src : List Char) (st st' : LexState)
    (h : lexStep src st = .ok st') :
    st'.tokens = st.tokens ∨
    (∃ s, st'.tokens = st.tokens ++ [.text s]) ∨
    (∃ s loc, st'.tokens = st.tokens ++ [.code s loc]) ∨
    (∃ s loc t, finalizeTag s loc = .ok t ∧ st'.tokens = st.tokens ++ [t]) := by
  unfold lexStep at h
  split at h
  · cases h; left; rfl
  · cases h; right; left; exact ⟨_, rfl⟩
  · split at h
    · cases h; right; right; left; exact ⟨_, _, rfl⟩
    · cases h; left; exact stepRest_tokens ..
  · split at h
    · split at h
      · exact absurd h (by simp)
      · cases h; right; right; right; exact ⟨_, _, _, by assumption, rfl⟩
    · cases h; left; exact stepRest_tokens ..
  · cases h; left; exact stepRest_tokens ..
  · cases h; left; exact stepRest_tokens ..

theorem lexFinish_flat (st : LexState) (toks : List PNode)
    (h : lexFinish st = .ok toks) (hf : ∀ t ∈ st.tokens, tokFlat t = true) :
    ∀ t ∈ toks, tokFlat t = true := by
  unfold lexFinish at h
  split at h
  · cases h; exact hf
  · cases h
    intro t ht
    rcases List.mem_append.mp ht with h1 | h2
    · exact hf t h1
    · simp at h2; subst h2; rfl
  · exact absurd h (by simp)
  · exact absurd h (by simp)

theorem lexLoop_flat (src : List Char) (f : Nat) (st : LexState) (toks : List PNode)
    (h : lexLoop src f st = .ok toks) (hf : ∀ t ∈ st.tokens, tokFlat t = true) :
    ∀ t ∈ toks, tokFlat t = true := by
  induction f generalizing st with
  | zero => exact absurd h (by simp [lexLoop])
  | succ f ih =>
      unfold lexLoop at h
      split at h
      · cases hs : lexStep src st with
        | error e => rw [hs] at h; exact absurd h (by simp)
        | ok st' =>
            rw [hs] at h
            refine ih st' h ?_
            rcases lexStep_tokens src st st' hs with he | ⟨s, he⟩ | ⟨s, l, he⟩ | ⟨s, l, t, hft, he⟩
            · rw [he]; exact hf
            · rw [he]; intro u hu
              rcases List.mem_append.mp hu with h1 | h2
              · exact hf u h1
              · simp at h2; subst h2; rfl
            · rw [he]; intro u hu
              rcases List.mem_append.mp hu with h1 | h2
              · exact hf u h1
              · simp at h2; subst h2; rfl
            · rw [he]; intro u hu
              rcases List.mem_append.mp hu with h1 | h2
              · exact hf u h1
              · simp at h2; subst h2; exact finalizeTag_flat _ _ _ hft
      · exact lexFinish_flat st toks h hf

theorem lexRun_flat (s : String) (toks : List PNode) (h : lexRun s = .ok toks) :
    ∀ t ∈ toks, tokFlat t = true := by
  exact lexLoop_flat s.data (s.data.length + 1) ⟨0, 1, 0, none, []⟩ toks h (by intro t ht; cases ht)

theorem pushChild_fst_length (x : PNode) (st : List (PNode × List PNode)) (acc : List PNode) :
    (pushChild x st acc).1.length = st.length := by
  cases st <;> rfl

theorem buildAux_count (toks : List PNode) :
    ∀ (st : List (PNode × List PNode)) (acc trees : List PNode),
    buildAux toks st acc = .ok trees → closeCount toks = tagCount toks + st.length := by
  induction toks with
  | nil =>
      intro st acc trees h
      cases st with
      | nil => simp [closeCount, tagCount]
      | cons p st' => exact absurd h (by simp [buildAux])
  | cons t rest ih =>
      intro st acc trees h
      cases t with
      | close s l =>
          cases st with
          | nil => exact absurd h (by simp [buildAux])
          | cons p st' =>
              obtain ⟨op, kids⟩ := p
              unfold buildAux at h
              have hr := ih _ _ _ h
              rw [pushChild_fst_length] at hr
              simp [closeCount, tagCount, List.countP_cons, isCloseTok, isTagTok] at *
              omega
      | tag k s l ch =>
          unfold buildAux at h
          have hr := ih _ _ _ h
          simp [closeCount, tagCount, List.countP_cons, isCloseTok, isTagTok] at *
          omega
      | text s =>
          unfold buildAux at h
          have hr := ih _ _ _ h
          rw [pushChild_fst_length] at hr
          simp [closeCount, tagCount, List.countP_cons, isCloseTok, isTagTok] at *
          omega
      | code s l =>
          unfold buildAux at h
          have hr := ih _ _ _ h
          rw [pushChild_fst_length] at hr
          simp [closeCount, tagCount, List.countP_cons, isCloseTok, isTagTok] at *
          omega

theorem closeFreeL_cons (n : PNode) (ns : List PNode) :
    closeFreeL (n :: ns) = (closeFree n && closeFreeL ns) := rfl

theorem closeFreeL_append (a b : List PNode) :
    closeFreeL (a ++ b) = (closeFreeL a && closeFreeL b) := by
  induction a with
  | nil => simp [closeFreeL]
  | cons x xs ih => simp [closeFreeL_cons, ih, Bool.and_assoc]

theorem closeFreeL_reverse (l : List PNode) :
    closeFreeL l.reverse = closeFreeL l := by
  induction l with
  | nil => rfl
  | cons x xs ih =>
      rw [List.reverse_cons, closeFreeL_append, ih]
      cases hx : closeFree x <;> cases hxs : closeFreeL xs <;>
        simp [closeFreeL_cons, hx, hxs, closeFreeL]

theorem pushChild_inv (x : PNode) (st : List (PNode × List PNode)) (acc : List PNode)
    (hx : closeFree x = true)
    (hst : ∀ p ∈ st, closeFreeL p.2 = true ∧ isTagTok p.1 = true)
    (hacc : closeFreeL acc = true) :
    (∀ p ∈ (pushChild x st acc).1, closeFreeL p.2 = true ∧ isTagTok p.1 = true) ∧
    closeFreeL (pushChild x st acc).2 = true := by
  cases st with
  | nil =>
      refine ⟨?_, ?_⟩
      · intro p hp; cases hp
      · simp [pushChild, closeFreeL_cons, hx, hacc]
  | cons q st2 =>
      obtain ⟨op2, k2⟩ := q
      refine ⟨?_, hacc⟩
      intro p hp
      rcases List.mem_cons.mp hp with rfl | hmem
      · refine ⟨?_, (hst (op2, k2) (List.mem_cons_self ..)).2⟩
        simp [closeFreeL_cons, hx, (hst (op2, k2) (List.mem_cons_self ..)).1]
      · exact hst p (List.mem_cons_of_mem _ hmem)

theorem buildAux_closeFree (toks : List PNode) :
    ∀ (st : List (PNode × List PNode)) (acc trees : List PNode),
    buildAux toks st acc = .ok trees →
    (∀ t ∈ toks, tokFlat t = true) →
    (∀ p ∈ st, closeFreeL p.2 = true ∧ isTagTok p.1 = true) →
    closeFreeL acc = true →
    closeFreeL trees = true := by
  induction toks with
  | nil =>
      intro st acc trees h hflat hst hacc
      cases st with
      | nil =>
          simp [buildAux] at h
          rw [← h, closeFreeL_reverse]
          exact hacc
      | cons p st' => exact absurd h (by simp [buildAux])
  | cons t rest ih =>
      intro st acc trees h hflat hst hacc
      cases t with
      | close s l =>
          cases st with
          | nil => exact absurd h (by simp [buildAux])
          | cons p st' =>
              obtain ⟨op, kids⟩ := p
              unfold buildAux at h
              have hop := hst (op, kids) (List.mem_cons_self ..)
              have hdone : closeFree (setChildren op kids.reverse) = true := by
                cases op with
                | tag k2 s2 l2 ch2 =>
                    simp [setChildren, closeFree, closeFreeL_reverse]
                    simpa [closeFree] using hop.1
                | text s2 => exact absurd hop.2 (by simp [isTagTok])
                | code s2 l2 => exact absurd hop.2 (by simp [isTagTok])
                | close s2 l2 => exact absurd hop.2 (by simp [isTagTok])
              have hst' : ∀ p ∈ st', closeFreeL p.2 = true ∧ isTagTok p.1 = true :=
                fun p hp => hst p (List.mem_cons_of_mem _ hp)
              obtain ⟨h1, h2⟩ := pushChild_inv (setChildren op kids.reverse) st' acc hdone hst' hacc
              exact ih _ _ _ h (fun u hu => hflat u (List.mem_cons_of_mem _ hu)) h1 h2
      | tag k s l ch =>
          unfold buildAux at h
          have hch : ch = [] := by
            have := hflat _ (List.mem_cons_self ..)
            simpa [tokFlat, List.isEmpty_iff] using this
          subst hch
          refine ih _ _ _ h (fun u hu => hflat u (List.mem_cons_of_mem _ hu)) ?_ hacc
          intro p hp
          rcases List.mem_cons.mp hp with rfl | hmem
          · exact ⟨rfl, rfl⟩
          · exact hst p hmem
      | text s =>
          unfold buildAux at h
          obtain ⟨h1, h2⟩ := pushChild_inv (.text s) st acc rfl hst hacc
          exact ih _ _ _ h (fun u hu => hflat u (List.mem_cons_of_mem _ hu)) h1 h2
      | code s l =>
          unfold buildAux at h
          obtain ⟨h1, h2⟩ := pushChild_inv (.code s l) st acc rfl hst hacc
          exact ih _ _ _ h (fun u hu => hflat u (List.mem_cons_of_mem _ hu)) h1 h2

theorem buildAux_unbound (toks : List PNode) :
    ∀ (st : List (PNode × List PNode)) (acc : List PNode) (n : PNode),
    buildAux toks st acc = .error (.unboundCloseTag n) →
    isCloseTok n = true ∧ n ∈ toks := by
  induction toks with
  | nil =>
      intro st acc n h
      cases st with
      | nil => exact absurd h (by simp [buildAux])
      | cons p st' =>
          obtain ⟨op, kids⟩ := p
          simp [buildAux] at h
  | cons t rest ih =>
      intro st acc n h
      cases t with
      | close s l =>
          cases st with
          | nil =>
              simp [buildAux] at h
              subst h
              exact ⟨rfl, List.mem_cons_self ..⟩
          | cons p st' =>
              obtain ⟨op, kids⟩ := p
              unfold buildAux at h
              obtain ⟨h1, h2⟩ := ih _ _ _ h
              exact ⟨h1, List.mem_cons_of_mem _ h2⟩
      | tag k s l ch =>
          unfold buildAux at h
          obtain ⟨h1, h2⟩ := ih _ _ _ h
          exact ⟨h1, List.mem_cons_of_mem _ h2⟩
      | text s =>
          unfold buildAux at h
          obtain ⟨h1, h2⟩ := ih _ _ _ h
          exact ⟨h1, List.mem_cons_of_mem _ h2⟩
      | code s l =>
          unfold buildAux at h
          obtain ⟨h1, h2⟩ := ih _ _ _ h
          exact ⟨h1, List.mem_cons_of_mem _ h2⟩

theorem buildAux_unclosed (toks : List PNode) :
    ∀ (st : List (PNode × List PNode)) (acc : List PNode) (n : PNode),
    buildAux toks st acc = .error (.unclosedTag n) →
    (∀ p ∈ st, isTagTok p.1 = true) →
    isTagTok n = true ∧ (n ∈ toks ∨ ∃ kids, (n, kids) ∈ st) := by
  induction toks with
  | nil =>
      intro st acc n h hst
      cases st with
      | nil => exact absurd h (by simp [buildAux])
      | cons p st' =>
          obtain ⟨op, kids⟩ := p
          simp [buildAux] at h
          subst h
          exact ⟨hst (op, kids) (List.mem_cons_self ..), Or.inr ⟨kids, List.mem_cons_self ..⟩⟩
  | cons t rest ih =>
      intro st acc n h hst
      cases t with
      | close s l =>
          cases st with
          | nil => simp [buildAux] at h
          | cons p st' =>
              obtain ⟨op, kids⟩ := p
              unfold buildAux at h
              have hst2 : ∀ p ∈ (pushChild (setChildren op kids.reverse) st' acc).1,
                  isTagTok p.1 = true := by
                cases st' with
                | nil => intro p hp; cases hp
                | cons q st2 =>
                    obtain ⟨op2, k2⟩ := q
                    intro p hp
                    rcases List.mem_cons.mp hp with rfl | hmem
                    · exact hst (op2, k2) (List.mem_cons_of_mem _ (List.mem_cons_self ..))
                    · exact hst p (List.mem_cons_of_mem _ (List.mem_cons_of_mem _ hmem))
              obtain ⟨h1, h2⟩ := ih _ _ _ h hst2
              refine ⟨h1, ?_⟩
              rcases h2 with hm | ⟨kids2, hmem⟩
              · exact Or.inl (List.mem_cons_of_mem _ hm)
              · cases st' with
                | nil => cases hmem
                | cons q st2 =>
                    obtain ⟨op2, k2⟩ := q
                    rcases List.mem_cons.mp hmem with heq | hmem2
                    · have : n = op2 := by
                        have := congrArg Prod.fst heq
                        simpa using this
                      subst this
                      exact Or.inr ⟨k2, List.mem_cons_of_mem _ (List.mem_cons_self ..)⟩
                    · exact Or.inr ⟨kids2, List.mem_cons_of_mem _ (List.mem_cons_of_mem _ hmem2)⟩
      | tag k s l ch =>
          unfold buildAux at h
          have hst2 : ∀ p ∈ ((PNode.tag k s l ch, ch.reverse) :: st), isTagTok p.1 = true := by
            intro p hp
            rcases List.mem_cons.mp hp with rfl | hmem
            · rfl
            · exact hst p hmem
          obtain ⟨h1, h2⟩ := ih _ _ _ h hst2
          refine ⟨h1, ?_⟩
          rcases h2 with hm | ⟨kids2, hmem⟩
          · exact Or.inl (List.mem_cons_of_mem _ hm)
          · rcases List.mem_cons.mp hmem with heq | hmem2
            · have : n = PNode.tag k s l ch := by
                have := congrArg Prod.fst heq
                simpa using this
              subst this
              exact Or.inl (List.mem_cons_self ..)
            · exact Or.inr ⟨kids2, hmem2⟩
      | text s =>
          unfold buildAux at h
          have hst2 : ∀ p ∈ (pushChild (.text s) st acc).1, isTagTok p.1 = true := by
            cases st with
            | nil => intro p hp; cases hp
            | cons q st2 =>
                obtain ⟨op2, k2⟩ := q
                intro p hp
                rcases List.mem_cons.mp hp with rfl | hmem
                · exact hst (op2, k2) (List.mem_cons_self ..)
                · exact hst p (List.mem_cons_of_mem _ hmem)
          obtain ⟨h1, h2⟩ := ih _ _ _ h hst2
          refine ⟨h1, ?_⟩
          rcases h2 with hm | ⟨kids2, hmem⟩
          · exact Or.inl (List.mem_cons_of_mem _ hm)
          · cases st with
            | nil => cases hmem
            | cons q st2 =>
                obtain ⟨op2, k2⟩ := q
                rcases List.mem_cons.mp hmem with heq | hmem2
                · have : n = op2 := by
                    have := congrArg Prod.fst heq
                    simpa using this
                  subst this
                  exact Or.inr ⟨k2, List.mem_cons_self ..⟩
                · exact Or.inr ⟨kids2, List.mem_cons_of_mem _ hmem2⟩
      | code s l =>
          unfold buildAux at h
          have hst2 : ∀ p ∈ (pushChild (.code s l) st acc).1, isTagTok p.1 = true := by
            cases st with
            | nil => intro p hp; cases hp
            | cons q st2 =>
                obtain ⟨op2, k2⟩ := q
                intro p hp
                rcases List.mem_cons.mp hp with rfl | hmem
                · exact hst (op2, k2) (List.mem_cons_self ..)
                · exact hst p (List.mem_cons_of_mem _ hmem)
          obtain ⟨h1, h2⟩ := ih _ _ _ h hst2
          refine ⟨h1, ?_⟩
          rcases h2 with hm | ⟨kids2, hmem⟩
          · exact Or.inl (List.mem_cons_of_mem _ hm)
          · cases st with
            | nil => cases hmem
            | cons q st2 =>
                obtain ⟨op2, k2⟩ := q
                rcases List.mem_cons.mp hmem with heq | hmem2
                · have : n = op2 := by
                    have := congrArg Prod.fst heq
                    simpa using this
                  subst this
                  exact Or.inr ⟨k2, List.mem_cons_self ..⟩
                · exact Or.inr ⟨kids2, List.mem_cons_of_mem _ hmem2⟩

theorem escAt_false_fst (src : List Char) (p : Nat) (h : chAt src p ≠ '\\') :
    escAt src p = false := by
  simp [escAt, h]

theorem escAt_false_len (src : List Char) (p : Nat) (h : ¬ p + 1 < src.length) :
    escAt src p = false := by
  simp [escAt, h]

theorem lexStep_escape (src : List Char) (st : LexState)
    (h : escAt src st.i = true) :
    lexStep src st = .ok ⟨st.i + 2, st.line, st.line_i,
      some (curPush (st.node.getD (.textC (""))) (chAt src (st.i + 1))), st.tokens⟩ := by
  simp only [escAt, Bool.and_eq_true, beq_iff_eq, Bool.or_eq_true, decide_eq_true_eq] at h
  obtain ⟨⟨hc, hd⟩, hlen⟩ := h
  have hline : lineAfter src st = st.line := by simp [lineAfter, hc]
  have hlinei : lineIAfter src st = st.line_i := by simp [lineIAfter, hc]
  have hopen : openDelimNode src st = none := by simp [openDelimNode, hc]
  have hrest : ∀ cur, stepRest src st cur =
      ⟨st.i + 2, st.line, st.line_i, some (curPush cur (chAt src (st.i + 1))), st.tokens⟩ := by
    intro cur
    unfold stepRest
    rcases hd with hd | hd <;> simp [hc, hd, hline, hlinei]
  unfold lexStep
  rw [hopen]
  cases hn : st.node with
  | none => simp [hrest, Option.getD]
  | some cur =>
      cases cur with
      | textC s => simp [hrest, Option.getD]
      | codeC s loc => rcases hd with hd | hd <;> simp [hc, hd, hrest, Option.getD]
      | tagC s loc => rcases hd with hd | hd <;> simp [hc, hd, hrest, Option.getD]

theorem lexStep_advance (src : List Char) (st st' : LexState)
    (h : lexStep src st = .ok st') :
    st'.i = st.i + 1 ∨ (st'.i = st.i + 2 ∧ escAt src (st.i + 1) = false) := by
  have hrest : ∀ cur, (stepRest src st cur).i = st.i + 1 ∨
      ((stepRest src st cur).i = st.i + 2 ∧ escAt src (st.i + 1) = false) := by
    intro cur
    unfold stepRest
    split
    · rename_i hcond
      simp only [Bool.and_eq_true, beq_iff_eq, Bool.or_eq_true] at hcond
      right
      refine ⟨rfl, escAt_false_fst src (st.i + 1) ?_⟩
      rcases hcond.2 with hd | hd <;> rw [hd] <;> decide
    · split
      · left; rfl
      · rename_i hlen
        right
        exact ⟨rfl, escAt_false_len src (st.i + 1) (by omega)⟩
  have hopen : ∀ nd, openDelimNode src st = some nd → escAt src (st.i + 1) = false := by
    intro nd hnd
    unfold openDelimNode at hnd
    split at hnd
    · rename_i hcond
      simp only [Bool.and_eq_true, beq_iff_eq] at hcond
      refine escAt_false_fst src (st.i + 1) ?_
      rw [hcond.2]; decide
    · split at hnd
      · rename_i hcond
        simp only [Bool.and_eq_true, beq_iff_eq] at hcond
        refine escAt_false_fst src (st.i + 1) ?_
        rw [hcond.2]; decide
      · cases hnd
  unfold lexStep at h
  split at h
  · rename_i hnd
    cases h
    exact Or.inr ⟨rfl, hopen _ hnd⟩
  · rename_i hnd
    cases h
    exact Or.inr ⟨rfl, hopen _ hnd⟩
  · split at h
    · rename_i hcond
      simp only [Bool.and_eq_true, beq_iff_eq] at hcond
      cases h
      right
      refine ⟨rfl, escAt_false_fst src (st.i + 1) ?_⟩
      rw [hcond.2]; decide
    · cases h; exact hrest _
  · split at h
    · rename_i hcond
      simp only [Bool.and_eq_true, beq_iff_eq] at hcond
      split at h
      · exact absurd h (by simp)
      · cases h
        right
        refine ⟨rfl, escAt_false_fst src (st.i + 1) ?_⟩
        rw [hcond.2]; decide
    · cases h; exact hrest _
  · cases h; exact hrest _
  · cases h; exact hrest _

theorem escAt_len (src : List Char) (p : Nat) (h : escAt src p = true) :
    p + 1 < src.length := by
  simp only [escAt, Bool.and_eq_true, decide_eq_true_eq] at h
  exact h.2

theorem lexReach_trans_step (src : List Char) (a b c : LexState)
    (hlt : a.i < src.length - 1) (hs : lexStep src a = .ok b)
    (hr : LexReach src b c) : LexReach src a c :=
  .step hlt hs hr

theorem reach_to_escape (src : List Char) (p : Nat) (h : escAt src p = true) :
    ∀ (k : Nat) (st : LexState), p - st.i ≤ k → st.i ≤ p →
      (∃ st', LexReach src st st' ∧ st'.i = p) ∨
      (∃ st' e, LexReach src st st' ∧ st'.i ≤ p ∧ lexStep src st' = .error e) := by
  intro k
  induction k with
  | zero =>
      intro st hk hle
      have : st.i = p := by omega
      exact Or.inl ⟨st, .refl st, this⟩
  | succ k ih =>
      intro st hk hle
      by_cases heq : st.i = p
      · exact Or.inl ⟨st, .refl st, heq⟩
      · have hlt : st.i < p := by omega
        have hplen : p + 1 < src.length := escAt_len src p h
        have hguard : st.i < src.length - 1 := by omega
        cases hs : lexStep src st with
        | error e => exact Or.inr ⟨st, e, .refl st, hle, hs⟩
        | ok st' =>
            have hadv : st'.i ≤ p := by
              rcases lexStep_advance src st st' hs with h1 | ⟨h2, hesc⟩
              · omega
              · by_cases hgt : st.i + 2 ≤ p
                · omega
                · have : p = st.i + 1 := by omega
                  rw [← this] at hesc
                  rw [hesc] at h
                  cases h
            have hik : p - st'.i ≤ k := by
              rcases lexStep_advance src st st' hs with h1 | ⟨h2, _⟩ <;> omega
            rcases ih st' hik hadv with ⟨st'', hr, he⟩ | ⟨st'', e, hr, hle2, herr⟩
            · exact Or.inl ⟨st'', .step hguard hs hr, he⟩
            · exact Or.inr ⟨st'', e, .step hguard hs hr, hle2, herr⟩

theorem chAt_lt (l : List Char) (n : Nat) (h : n < l.length) : chAt l n = l[n] := by
  induction l generalizing n with
  | nil => simp at h
  | cons c cs ih =>
      cases n with
      | zero => rfl
      | succ m => simpa [chAt] using ih m (by simpa using h)

theorem take_succ_chAt (l : List Char) (n : Nat) (h : n < l.length) :
    l.take (n + 1) = l.take n ++ [chAt l n] := by
  rw [List.take_succ, List.getElem?_eq_getElem h, chAt_lt l n h]
  rfl

theorem nlCount_append_one (l : List Char) (c : Char) :
    nlCount (l ++ [c]) = nlCount l + (if c == '\n' then 1 else 0) := by
  unfold nlCount
  rw [List.countP_append]
  cases hc : (c == '\n') <;> simp [List.countP, List.countP.go, hc]

theorem lastNlAux_append (l : List Char) (c : Char) (idx best : Nat) :
    lastNlAux (l ++ [c]) idx best =
      if c == '\n' then idx + l.length else lastNlAux l idx best := by
  induction l generalizing idx best with
  | nil => cases hc : (c == '\n') <;> simp [lastNlAux, hc]
  | cons a as ih =>
      show lastNlAux (as ++ [c]) (idx + 1) _ = _
      rw [ih]
      cases hc : (c == '\n') <;> (simp [lastNlAux, hc]; try omega)

theorem lastNl_append (l : List Char) (c : Char) :
    lastNl (l ++ [c]) = if c == '\n' then l.length else lastNl l := by
  unfold lastNl
  rw [lastNlAux_append]
  simp

theorem take_length_of_le (l : List Char) (n : Nat) (h : n ≤ l.length) :
    (l.take n).length = n := by
  simp [List.length_take, Nat.min_eq_left h]

theorem curPush_loc (cur : CurNode) (c : Char) : curLoc (curPush cur c) = curLoc cur := by
  cases cur <;> rfl

theorem finalizeTag_loc (s : String) (loc : Nat × Nat) (t : PNode)
    (h : finalizeTag s loc = .ok t) : tokLoc t = some loc := by
  unfold finalizeTag at h
  split at h
  · exact absurd h (by simp)
  · split at h
    · split at h
      · exact absurd h (by simp)
      · cases h; rfl
    · cases h; rfl
    · cases h; rfl
    · cases h; rfl
    · exact absurd h (by simp)

theorem lineAfter_spec (src : List Char) (st : LexState)
    (hlen : st.i < src.length)
    (hline : st.line = 1 + nlCount (src.take st.i))
    (hlinei : st.line_i = lastNl (src.take st.i)) :
    lineAfter src st = 1 + nlCount (src.take (st.i + 1)) ∧
    lineIAfter src st = lastNl (src.take (st.i + 1)) := by
  rw [take_succ_chAt src st.i hlen, nlCount_append_one, lastNl_append,
    take_length_of_le src st.i (by omega)]
  unfold lineAfter lineIAfter
  cases hc : (chAt src st.i == '\n') <;> (simp [hc, hline, hlinei]; try omega)

theorem take_two_spec (src : List Char) (st : LexState)
    (hlen : st.i + 1 < src.length)
    (hd : chAt src (st.i + 1) ≠ '\n') :
    nlCount (src.take (st.i + 2)) = nlCount (src.take (st.i + 1)) ∧
    lastNl (src.take (st.i + 2)) = lastNl (src.take (st.i + 1)) := by
  rw [take_succ_chAt src (st.i + 1) hlen, nlCount_append_one, lastNl_append]
  simp [hd]

theorem stepRest_lexInv (src : List Char) (st : LexState) (cur : CurNode)
    (hguard : st.i < src.length - 1)
    (hline : st.line = 1 + nlCount (src.take st.i) ∧ st.line_i = lastNl (src.take st.i))
    (htok : ∀ t ∈ st.tokens, ∀ l, tokLoc t = some l → locOrigin src l)
    (hnode : ∀ l, curLoc cur = some l → locOrigin src l) :
    lexInv src (stepRest src st cur) := by
  have hlen1 : st.i < src.length := by omega
  obtain ⟨h1, h2⟩ := lineAfter_spec src st hlen1 hline.1 hline.2
  unfold stepRest
  split
  · rename_i hcond
    simp only [Bool.and_eq_true, beq_iff_eq, Bool.or_eq_true] at hcond
    refine ⟨?_, htok, ?_⟩
    · intro hlt'
      have hd : chAt src (st.i + 1) ≠ '\n' := by
        rcases hcond.2 with hd | hd <;> rw [hd] <;> decide
      obtain ⟨g1, g2⟩ := take_two_spec src st (by omega) hd
      constructor
      · show lineAfter src st = _
        rw [h1, g1]
      · show lineIAfter src st = _
        rw [h2, g2]
    · intro cur2 hcur2 l hl
      cases hcur2
      rw [curPush_loc] at hl
      exact hnode l hl
  · split
    · refine ⟨?_, htok, ?_⟩
      · intro hlt'
        exact ⟨h1, h2⟩
      · intro cur2 hcur2 l hl
        cases hcur2
        rw [curPush_loc] at hl
        exact hnode l hl
    · rename_i hnlt
      refine ⟨?_, htok, ?_⟩
      · intro hlt'
        exfalso
        simp only [LexState.i] at hlt'
        omega
      · intro cur2 hcur2 l hl
        cases hcur2
        rw [curPush_loc, curPush_loc] at hl
        exact hnode l hl

theorem lexStep_lexInv (src : List Char) (st st' : LexState)
    (hguard : st.i < src.length - 1)
    (h : lexStep src st = .ok st')
    (inv : lexInv src st) : lexInv src st' := by
  obtain ⟨hline0, htok, hnode⟩ := inv
  have hline := hline0 hguard
  have hlen1 : st.i < src.length := by omega
  have hlen2 : st.i + 1 < src.length := by omega
  obtain ⟨h1, h2⟩ := lineAfter_spec src st hlen1 hline.1 hline.2
  have htokAdd : ∀ (t : PNode), (∀ l, tokLoc t = some l → locOrigin src l) →
      (∀ u ∈ st.tokens ++ [t], ∀ l, tokLoc u = some l → locOrigin src l) := by
    intro t ht u hu l hl
    rcases List.mem_append.mp hu with hm | hm
    · exact htok u hm l hl
    · simp at hm; subst hm; exact ht l hl
  have hopenOrigin : ∀ nd, openDelimNode src st = some nd →
      (∀ l, curLoc nd = some l → locOrigin src l) := by
    intro nd hnd l hl
    unfold openDelimNode at hnd
    split at hnd
    · rename_i hcond
      simp only [Bool.and_eq_true, beq_iff_eq] at hcond
      cases hnd
      cases hl
      refine ⟨st.i, ?_, ?_⟩
      · simp [opensAt, hcond.1, hcond.2, hlen2]
      · unfold posSpec lineAfter lineIAfter
        rw [show (chAt src st.i == '\n') = false by rw [hcond.1]; decide]
        simp [hline.1, hline.2]
    · split at hnd
      · rename_i hcond
        simp only [Bool.and_eq_true, beq_iff_eq] at hcond
        cases hnd
        cases hl
        refine ⟨st.i, ?_, ?_⟩
        · simp [opensAt, hcond.1, hcond.2, hlen2]
        · unfold posSpec lineAfter lineIAfter
          rw [show (chAt src st.i == '\n') = false by rw [hcond.1]; decide]
          simp [hline.1, hline.2]
      · cases hnd
  have hopenD : ∀ nd, openDelimNode src st = some nd →
      (chAt src (st.i + 1) = '\x7b' ∨ chAt src (st.i + 1) = '%') := by
    intro nd hnd
    unfold openDelimNode at hnd
    split at hnd
    · rename_i hcond
      simp only [Bool.and_eq_true, beq_iff_eq] at hcond
      exact Or.inl hcond.2
    · split at hnd
      · rename_i hcond
        simp only [Bool.and_eq_true, beq_iff_eq] at hcond
        exact Or.inr hcond.2
      · cases hnd
  have hlinePlus2 : chAt src (st.i + 1) ≠ '\n' →
      lineAfter src st = 1 + nlCount (src.take (st.i + 2)) ∧
      lineIAfter src st = lastNl (src.take (st.i + 2)) := by
    intro hdn
    obtain ⟨g1, g2⟩ := take_two_spec src st hlen2 hdn
    exact ⟨by rw [h1, g1], by rw [h2, g2]⟩
  unfold lexStep at h
  split at h
  · rename_i nd0 hstn hnd
    cases h
    refine ⟨?_, htok, ?_⟩
    · intro hlt'
      exact hlinePlus2 (by rcases hopenD _ hnd with hd | hd <;> rw [hd] <;> decide)
    · intro cur2 hcur2 l hl
      cases hcur2
      exact hopenOrigin _ hnd l hl
  · rename_i s0 nd0 hstn hnd
    cases h
    refine ⟨?_, htokAdd (.text s0) (by intro l hl; cases hl), ?_⟩
    · intro hlt'
      exact hlinePlus2 (by rcases hopenD _ hnd with hd | hd <;> rw [hd] <;> decide)
    · intro cur2 hcur2 l hl
      cases hcur2
      exact hopenOrigin _ hnd l hl
  · rename_i s0 loc0 hstn
    split at h
    · rename_i hcond
      simp only [Bool.and_eq_true, beq_iff_eq] at hcond
      cases h
      refine ⟨?_, htokAdd (.code s0 loc0) ?_, ?_⟩
      · intro hlt'
        exact hlinePlus2 (by rw [hcond.2]; decide)
      · intro l hl
        cases hl
        exact hnode _ hstn _ rfl
      · intro cur2 hcur2 l hl
        cases hcur2
    · cases h
      exact stepRest_lexInv src st (.codeC s0 loc0) hguard hline htok
        (fun l hl => hnode _ hstn l hl)
  · rename_i s0 loc0 hstn
    split at h
    · rename_i hcond
      simp only [Bool.and_eq_true, beq_iff_eq] at hcond
      split at h
      · exact absurd h (by simp)
      · rename_i t hft
        cases h
        refine ⟨?_, htokAdd t ?_, ?_⟩
        · intro hlt'
          exact hlinePlus2 (by rw [hcond.2]; decide)
        · intro l hl
          rw [finalizeTag_loc s0 loc0 t hft] at hl
          cases hl
          exact hnode _ hstn _ rfl
        · intro cur2 hcur2 l hl
          cases hcur2
    · cases h
      exact stepRest_lexInv src st (.tagC s0 loc0) hguard hline htok
        (fun l hl => hnode _ hstn l hl)
  · cases h
    exact stepRest_lexInv src st (.textC ("")) hguard hline htok
      (fun l hl => by cases hl)
  · rename_i s0 hstn hnd
    cases h
    exact stepRest_lexInv src st (.textC s0) hguard hline htok
      (fun l hl => by cases hl)

theorem lexLoop_loc (src : List Char) (f : Nat) (st : LexState) (toks : List PNode)
    (h : lexLoop src f st = .ok toks) (inv : lexInv src st) :
    ∀ t ∈ toks, ∀ l, tokLoc t = some l → locOrigin src l := by
  induction f generalizing st with
  | zero => exact absurd h (by simp [lexLoop])
  | succ f ih =>
      unfold lexLoop at h
      split at h
      · rename_i hguard
        cases hs : lexStep src st with
        | error e => rw [hs] at h; exact absurd h (by simp)
        | ok st' =>
            rw [hs] at h
            exact ih st' h (lexStep_lexInv src st st' hguard hs inv)
      · unfold lexFinish at h
        split at h
        · cases h
          exact inv.2.1
        · cases h
          intro t ht l hl
          rcases List.mem_append.mp ht with hm | hm
          · exact inv.2.1 t hm l hl
          · simp at hm; subst hm; cases hl
        · exact absurd h (by simp)
        · exact absurd h (by simp)

theorem lexInv_init (src : List Char) : lexInv src ⟨0, 1, 0, none, []⟩ := by
  refine ⟨?_, ?_, ?_⟩
  · intro _
    constructor
    · simp [nlCount, List.countP, List.countP.go]
    · simp [lastNl, lastNlAux]
  · intro t ht; cases ht
  · intro cur hcur; cases hcur

theorem commentIdentify_excl (s : String) (h : commentIdentify s = true) :
    forIdentify s = false ∧ closeIdentify s = false ∧ whileIdentify s = false := by
  unfold commentIdentify pyStartsWith at h
  unfold forIdentify closeIdentify whileIdentify pyStartsWith
  cases hd : (pyStrip s).data with
  | nil =>
      rw [hd] at h
      simp [List.isPrefixOf] at h
  | cons c cs =>
      rw [hd] at h
      have hcd : ("comment").data = ['c', 'o', 'm', 'm', 'e', 'n', 't'] := rfl
      rw [hcd] at h
      simp [List.isPrefixOf] at h
      have hc : c = 'c' := h.1.symm
      subst hc
      refine ⟨?_, ?_, ?_⟩ <;> simp [hd, List.isPrefixOf]

theorem envLookup_set_ne (e : Env) (a k : String) (v : PyVal) (h : ¬ k = a) :
    envLookup (envSet e a v) k = envLookup e k := by
  induction e with
  | nil =>
      have : (a == k) = false := by
        simp only [beq_eq_false_iff_ne, ne_eq]
        intro hak
        exact h hak.symm
      simp [envSet, envLookup, this]
  | cons p r ih =>
      obtain ⟨k0, w⟩ := p
      by_cases h0 : (k0 == a) = true
      · have hk0 : k0 = a := by simpa using h0
        subst hk0
        have : (k0 == k) = false := by
          simp only [beq_eq_false_iff_ne, ne_eq]
          intro hak
          exact h hak.symm
        simp [envSet, envLookup, this]
      · have h0' : (k0 == a) = false := by simpa using h0
        simp only [envSet, h0', Bool.false_eq_true, if_false]
        simp [envLookup, ih]

theorem peInit_preserves (st : Env) (k : String) (v : PyVal)
    (hk : k ∉ (["__builtins__", "__package__", "__name__", "__doc__", "write"] : List String))
    (h : envLookup st k = some v) : envLookup (peInit st) k = some v := by
  simp only [List.mem_cons, List.not_mem_nil, or_false, not_or] at hk
  obtain ⟨h1, h2, h3, h4, h5⟩ := hk
  unfold peInit
  rw [envLookup_set_ne _ _ _ _ h5, envLookup_set_ne _ _ _ _ h4, envLookup_set_ne _ _ _ _ h3,
    envLookup_set_ne _ _ _ _ h2, envLookup_set_ne _ _ _ _ h1]
  exact h

/-- C1: evidence for the zero-iteration cleanup defect of `ForTag.run`.
The template with an empty generator parses into the expected for-tag
tree; the default environment has no binding for the target `i`; and
executing it reaches the cleanup loop `del pe.env[target]`, which raises
KeyError because the loop body never ran and so never bound `i`. The
claim says exhaustion with zero tuples terminates the loop normally with
targets deleted and backups restored; the code instead crashes here. -/
theorem C1_for_zero_iterations_keyerror :
    parseTemplate ("\x7b% for i in [] %\x7dx\x7b% %\x7d") =
      .ok [.tag (.forK [("i")] ("((i) for i in [])")) ("for i in []") (1, 0) [.text ("x")]] ∧
    envHas (peInit []) ("i") = false ∧
    execute demoE1 64 ("\x7b% for i in [] %\x7dx\x7b% %\x7d") [] =
      .error (.run (.keyError ("i")) (peInit [])) :=
  ⟨rfl, rfl, rfl⟩

/-- C2: evidence for the malformed-for-tag error path. The body `for x`
has no `in` token, so `_find_targets` extracts no identifiers, and the
lexer reaches the `raise IncorrectForTag` statement (modelled by the
`incorrectForTag` error). In the Python 2 source this raise statement
itself is defective: `IncorrectForTag.__init__` requires a `node`
argument that the bare `raise IncorrectForTag` does not supply, so the
caller observes a TypeError instead of the documented IncorrectForTag. -/
theorem C2_incorrect_for_tag_raise_site :
    findTargets ("for x") = [] ∧
    parseTemplate ("\x7b% for x %\x7d") = .error (.incorrectForTag ("for x")) :=
  ⟨rfl, rfl⟩

/-- C3 counterexample: an evaluator-raised StopIteration inside a
for-loop body does not propagate. The demo evaluator raises
StopIteration for the body expression `boom`, yet the whole execution
returns `.ok` with empty output: the `except StopIteration` of
`ForTag.run` wraps the body execution too and turns the error into
normal loop termination, contradicting the claim that every evaluator
error propagates to the caller exactly as produced. -/
theorem C3_counterexample_stopiteration_suppressed :
    execute demoE3 64 ("\x7b% for i in gen %\x7d\x7b\x7b boom \x7d\x7d\x7b% %\x7d") [] =
      .ok ("", peInit []) ∧
    demoE3.eval (" boom ") (envSet (peInit []) ("i") (.int 0)) =
      .error (.stopIteration, envSet (peInit []) ("i") (.int 0)) :=
  ⟨rfl, rfl⟩

/-- C3 (amended): evaluator errors propagate to the caller exactly as
produced at every evaluation site — expression and block code nodes,
sequencing of siblings, the generator expression of a for tag, and the
condition of a while tag — with the single exception of a StopIteration
raised while executing a for-loop body, which `ForTag.run` catches and
treats as loop exhaustion, ending the loop with the output accumulated
so far and the environment as the body left it. -/
theorem C3_evaluator_error_propagation (E : Evaluator) :
    (∀ (s : String) (env : Env) (r : PyErr × Env),
      (strContains s '\n' || strContains s ';') = false →
      E.eval s env = .error r → peRun E s env = .error r) ∧
    (∀ (s : String) (env : Env) (r : PyErr × Env),
      (strContains s '\n' || strContains s ';') = true →
      E.exec s env = .error r → peRun E s env = .error r) ∧
    (∀ (f : Nat) (n : PNode) (ns : List PNode) (env : Env) (r : PyErr × Env),
      execAll E f (.node1 n) env = .error r →
      execAll E (f + 1) (.nodes (n :: ns)) env = .error r) ∧
    (∀ (f : Nat) (n : PNode) (ns : List PNode) (env : Env) (o : String) (env1 : Env) (r : PyErr × Env),
      execAll E f (.node1 n) env = .ok (o, env1) →
      execAll E f (.nodes ns) env1 = .error r →
      execAll E (f + 1) (.nodes (n :: ns)) env = .error r) ∧
    (∀ (f : Nat) (ts : List String) (ge src : String) (loc : Nat × Nat) (ch : List PNode)
        (env : Env) (r : PyErr × Env),
      E.eval ge env = .error r →
      execAll E (f + 1) (.node1 (.tag (.forK ts ge) src loc ch)) env = .error r) ∧
    (∀ (f : Nat) (ts : List String) (ch : List PNode) (item : PyVal) (rest : List PyVal)
        (env : Env) (pairs : List (String × PyVal)) (e : PyErr) (envE : Env),
      zipTargets ts item = .ok pairs →
      execAll E f (.nodes ch) (envUpdate env pairs) = .error (e, envE) →
      e ≠ .stopIteration →
      execAll E (f + 1) (.floop ts ch (item :: rest)) env = .error (e, envE)) ∧
    (∀ (f : Nat) (ts : List String) (ch : List PNode) (item : PyVal) (rest : List PyVal)
        (env : Env) (pairs : List (String × PyVal)) (envE : Env),
      zipTargets ts item = .ok pairs →
      execAll E f (.nodes ch) (envUpdate env pairs) = .error (.stopIteration, envE) →
      execAll E (f + 1) (.floop ts ch (item :: rest)) env = .ok ("", envE)) ∧
    (∀ (f : Nat) (ex : String) (sl : Bool) (ch : List PNode) (k : Nat) (env : Env) (r : PyErr × Env),
      E.eval ex env = .error r →
      execAll E (f + 1) (.wloop ex sl ch k) env = .error r) := by
  refine ⟨?_, ?_, ?_, ?_, ?_, ?_, ?_, ?_⟩
  · intro s env r hc he
    simp [peRun, hc, he]
  · intro s env r hc he
    simp [peRun, hc, he]
  · intro f n ns env r h
    simp [execAll, h]
  · intro f n ns env o env1 r h1 h2
    simp [execAll, h1, h2]
  · intro f ts ge src loc ch env r h
    simp [execAll, h]
  · intro f ts ch item rest env pairs e envE hz hx hne
    cases e <;> simp_all [execAll]
  · intro f ts ch item rest env pairs envE hz hx
    simp [execAll, hz, hx]
  · intro f ex sl ch k env r h
    simp [execAll, h]

/-- C3 witness: the StopIteration carve-out applied at a concrete input:
the for-loop with one pending iteration whose body raises StopIteration
returns `.ok` with the environment the body left behind. -/
theorem C3_evaluator_error_propagation_witness :
    execAll demoE3 9 (.floop [("i")] [.code (" boom ") (1, 18)] [.list [.int 0]]) (peInit []) =
      .ok ("", envSet (peInit []) ("i") (.int 0)) :=
  (C3_evaluator_error_propagation demoE3).2.2.2.2.2.2.1 8 [("i")] [.code (" boom ") (1, 18)]
    (.list [.int 0]) [] (peInit []) [(("i"), .int 0)] (envSet (peInit []) ("i") (.int 0)) rfl rfl

/-- C4: comment tags are parsed but inert. `CommentTag.run` returns empty
output and the untouched environment for every evaluator, fuel, body and
child list — the universal quantification over the evaluator shows that
no evaluator call can be observed. The two parses show that a comment
tag's children are still built (the division-by-zero code node is
present in the tree) and still structurally validated (a nested unknown
tag fails at parse time). -/
theorem C4_comment_tag_inert :
    (∀ (E : Evaluator) (f : Nat) (src : String) (loc : Nat × Nat) (children : List PNode) (env : Env),
      execAll E (f + 1) (.node1 (.tag .commentK src loc children)) env = .ok ("", env)) ∧
    parseTemplate ("\x7b% comment %\x7d\x7b\x7b 1/0 \x7d\x7d\x7b% %\x7d") =
      .ok [.tag .commentK ("comment") (1, 0) [.code (" 1/0 ") (1, 13)]] ∧
    parseTemplate ("\x7b% comment %\x7d\x7b% bogus %\x7d\x7b% %\x7d") =
      .error (.unknownTag (" bogus ") (1, 13)) :=
  ⟨fun _ _ _ _ _ _ => rfl, rfl, rfl⟩

/-- C5: evidence that a single-character delimiter-free input is not
reproduced. The scan loop `while i < len(src) - 1` never runs for a
one-character source, so `lex` returns no tokens and the execution of
the template produces empty output instead of the input itself, for
every evaluator and environment. -/
theorem C5_single_character_input_dropped :
    lexRun ("a") = .ok [] ∧
    (∀ (E : Evaluator) (env : Env) (f : Nat), execute E (f + 1) ("a") env = .ok ("", peInit env)) ∧
    ("" : String) ≠ ("a") :=
  ⟨rfl, fun _ _ _ => rfl, by decide⟩

/-- C6: escape pairs always yield a literal brace and never participate
in delimiter matching. (i) Whenever the scan stands on a `\x5c\x7b` or
`\x5c\x7d` pair, the step consumes both characters, appends the brace to
the current node's body (creating a text node when none is open), emits
no token and neither opens nor closes a delimited node. (ii) Every
successful step advances by one or two characters, and a two-character
advance never skips the start of an escape pair, so the scan stands on
every escape pair eventually: (iv) from any state at or before an escape
pair position, the scan either reaches exactly that position or stops
with a structural error first. (iii) ties the step function to the
fueled scan loop of `lex`. -/
theorem C6_escape_pairs_literal_brace (src : List Char) :
    (∀ st : LexState, escAt src st.i = true →
      lexStep src st = .ok ⟨st.i + 2, st.line, st.line_i,
        some (curPush (st.node.getD (.textC (""))) (chAt src (st.i + 1))), st.tokens⟩) ∧
    (∀ st st' : LexState, lexStep src st = .ok st' →
      st'.i = st.i + 1 ∨ (st'.i = st.i + 2 ∧ escAt src (st.i + 1) = false)) ∧
    (∀ (f : Nat) (st st' : LexState), st.i < src.length - 1 → lexStep src st = .ok st' →
      lexLoop src (f + 1) st = lexLoop src f st') ∧
    (∀ (p : Nat) (st : LexState), escAt src p = true → st.i ≤ p →
      (∃ st', LexReach src st st' ∧ st'.i = p) ∨
      (∃ st' e, LexReach src st st' ∧ st'.i ≤ p ∧ lexStep src st' = .error e)) := by
  refine ⟨?_, ?_, ?_, ?_⟩
  · exact fun st h => lexStep_escape src st h
  · exact fun st st' h => lexStep_advance src st st' h
  · intro f st st' hguard hs
    have hunf : lexLoop src (f + 1) st =
        (if st.i < src.length - 1 then
          match lexStep src st with
          | .error e => .error e
          | .ok st2 => lexLoop src f st2
        else lexFinish st) := rfl
    rw [hunf, if_pos hguard, hs]
  · exact fun p st h hle => reach_to_escape src p h (p - st.i) st le_rfl hle

/-- C6 witness: the escape step applied at a concrete input: scanning
`a\x5c\x7b b` at index 1 consumes the pair and pushes a literal `\x7b`
onto the current text node. -/
theorem C6_escape_pairs_literal_brace_witness :
    escAt ("a\\\x7b b").data 1 = true ∧
    lexStep ("a\\\x7b b").data ⟨1, 1, 0, some (.textC ("a")), []⟩ =
      .ok ⟨3, 1, 0, some (.textC ("a\x7b")), []⟩ :=
  ⟨by decide, (C6_escape_pairs_literal_brace ("a\\\x7b b").data).1
    ⟨1, 1, 0, some (.textC ("a")), []⟩ (by decide)⟩

/-- C7: tree building pairs and consumes close markers. For every token
stream the lexer produces: a successful build retains no close node
anywhere in the tree and consumed exactly one close token per open-tag
token; an `UnboundCloseTag` error always cites a close token of the
stream (the error value carries the node, hence its position); an
`UnclosedTag` error always cites an open-tag token of the stream. The
two concrete parses show the errors with their positions: a bare close
at the root, and a for tag left open at end of input. -/
theorem C7_build_tree_pairing :
    (∀ (s : String) (toks : List PNode), lexRun s = .ok toks →
      (∀ trees, buildAux toks [] [] = .ok trees →
          closeFreeL trees = true ∧ closeCount toks = tagCount toks) ∧
      (∀ n, buildAux toks [] [] = .error (.unboundCloseTag n) →
          isCloseTok n = true ∧ n ∈ toks) ∧
      (∀ n, buildAux toks [] [] = .error (.unclosedTag n) →
          isTagTok n = true ∧ n ∈ toks)) ∧
    parseTemplate ("\x7b% %\x7d") = .error (.unboundCloseTag (.close (" ") (1, 0))) ∧
    parseTemplate ("\x7b% for x in y %\x7d") =
      .error (.unclosedTag (.tag (.forK [("x")] ("((x) for x in y)")) ("for x in y") (1, 0) [])) := by
  refine ⟨?_, rfl, rfl⟩
  intro s toks hlex
  refine ⟨?_, ?_, ?_⟩
  · intro trees hb
    constructor
    · exact buildAux_closeFree toks [] [] trees hb (lexRun_flat s toks hlex)
        (by intro p hp; cases hp) rfl
    · have := buildAux_count toks [] [] trees hb
      simpa using this
  · intro n hb
    exact buildAux_unbound toks [] [] n hb
  · intro n hb
    have := buildAux_unclosed toks [] [] n hb (by intro p hp; cases hp)
    refine ⟨this.1, ?_⟩
    rcases this.2 with hm | ⟨kids, hmem⟩
    · exact hm
    · cases hmem

/-- C7 witness: the unbound-close conjunct applied at the concrete
stream produced by lexing a lone close tag. -/
theorem C7_build_tree_pairing_witness :
    isCloseTok (.close (" ") (1, 0)) = true ∧
    (PNode.close (" ") (1, 0)) ∈ [PNode.close (" ") (1, 0)] :=
  (C7_build_tree_pairing.1 ("\x7b% %\x7d") [.close (" ") (1, 0)] rfl).2.1
    (.close (" ") (1, 0)) rfl

/-- C8 counterexample: the body `commentary` is classified as a comment
tag although its trimmed body is not the keyword `comment` (with or
without trailing whitespace) — `CommentTag.identify` only tests the
prefix. This refutes the claim that a body is classified Comment only
when the trimmed body is exactly `comment`. -/
theorem C8_counterexample_comment_prefix :
    classifyTag ("commentary") = some .commentC ∧
    pyStrip ("commentary") = ("commentary") ∧
    ("commentary" : String) ≠ ("comment") ∧
    lexRun ("\x7b% commentary %\x7d") = .ok [.tag .commentK ("commentary") (1, 0) []] :=
  ⟨rfl, rfl, by decide, rfl⟩

/-- C8 (amended): the classifier runs the identify predicates in the
fixed order for, close, while, comment (first conjunct, the literal
priority chain); a body is classified Comment exactly when its trimmed
body starts with `comment` (second conjunct — trailing anything, not
only whitespace, is accepted); and a body matching none of the four
predicates makes the lexer raise UnknownTag at the tag's closing
delimiter (third conjunct). -/
theorem C8_classifier_priority_and_predicates (s : String) :
    (classifyTag s =
      (if forIdentify s then some .forC
       else if closeIdentify s then some .closeC
       else if whileIdentify s then some .whileC
       else if commentIdentify s then some .commentC
       else none)) ∧
    (classifyTag s = some .commentC ↔ commentIdentify s = true) ∧
    (classifyTag s = none → ∀ (loc : Nat × Nat), strContains s '\n' = false →
      finalizeTag s loc = .error (.unknownTag s loc)) := by
  have hcls : classifyTag s =
      (if forIdentify s then some .forC
       else if closeIdentify s then some .closeC
       else if whileIdentify s then some .whileC
       else if commentIdentify s then some .commentC
       else none) := rfl
  refine ⟨hcls, ⟨?_, ?_⟩, ?_⟩
  · intro h
    rw [hcls] at h
    by_cases h1 : forIdentify s <;> by_cases h2 : closeIdentify s <;>
      by_cases h3 : whileIdentify s <;> by_cases h4 : commentIdentify s <;>
      simp_all
  · intro h
    obtain ⟨e1, e2, e3⟩ := commentIdentify_excl s h
    rw [hcls, e1, e2, e3, h]
    rfl
  · intro h loc hnl
    simp [finalizeTag, hnl, h]

/-- C8 witness: the comment characterization applied at the concrete
body `commentary`, whose trimmed form starts with the keyword. -/
theorem C8_classifier_priority_and_predicates_witness :
    classifyTag ("commentary") = some TagCase.commentC :=
  (C8_classifier_priority_and_predicates ("commentary")).2.1.mpr (by decide)

/-- C9 counterexample: the code node opening at the first character of
the second line receives column 1, not 0: after a newline the lexer sets
`line_i` to the index of the newline itself, so columns on lines after
the first are offsets from the newline character. This refutes the claim
that the first character of any line has column 0. -/
theorem C9_counterexample_column_after_newline :
    lexRun ("\n\x7b\x7b\x7d\x7d") = .ok [.text ("\n"), .code ("") (2, 1)] ∧
    ((2, 1) : Nat × Nat) ≠ (2, 0) :=
  ⟨rfl, by decide⟩

/-- C9 (amended): every position attached to a delimited token is the
pair `(1 + number of newlines before the opening delimiter, opening
index minus the index of the last preceding newline — 0 when there is
none)`. Hence the line is 1-based; the column is the 0-based offset from
the start of the source on the first line, and the offset from the last
newline character itself on later lines, so the first character of a
later line has column 1, not 0. -/
theorem C9_position_attachment :
    ∀ (s : String) (toks : List PNode), lexRun s = .ok toks →
      ∀ t ∈ toks, ∀ l, tokLoc t = some l →
        ∃ p, opensAt s.data p = true ∧ l = posSpec s.data p := by
  intro s toks h
  exact lexLoop_loc s.data (s.data.length + 1) ⟨0, 1, 0, none, []⟩ toks h (lexInv_init s.data)

/-- C9 witness: the position characterization applied at the concrete
source that opens a code node right after a newline. -/
theorem C9_position_attachment_witness :
    ∃ p, opensAt ("\n\x7b\x7b\x7d\x7d").data p = true ∧
      ((2, 1) : Nat × Nat) = posSpec ("\n\x7b\x7b\x7d\x7d").data p :=
  C9_position_attachment ("\n\x7b\x7b\x7d\x7d") [.text ("\n"), .code ("") (2, 1)] rfl
    (.code ("") (2, 1)) (by simp) (2, 1) rfl

/-- C10: the execution engine's default environment is one shared
mapping. `PypageExec.__init__` re-binds only the five bootstrap names,
so any other binding present in the shared mapping survives into the
next default-environment run (first conjunct). The demo run shows the
observable consequence: a binding `x = 5` created by a code block in one
execution is read back by an expression in a later default-environment
execution, while a fresh independent environment makes the same later
execution fail with a NameError — successive default runs are not
independent. -/
theorem C10_default_environment_shared :
    (∀ (st : Env) (k : String) (v : PyVal),
      k ∉ (["__builtins__", "__package__", "__name__", "__doc__", "write"] : List String) →
      envLookup st k = some v → envLookup (peInit st) k = some v) ∧
    execute demoE10 64 ("\x7b\x7bx = 5;\x7d\x7d") [] =
      .ok ("", envSet (peInit []) ("x") (.int 5)) ∧
    execute demoE10 64 ("\x7b\x7bx\x7d\x7d") (envSet (peInit []) ("x") (.int 5)) =
      .ok ("5", envSet (peInit []) ("x") (.int 5)) ∧
    execute demoE10 64 ("\x7b\x7bx\x7d\x7d") [] =
      .error (.run (.nameError ("x")) (peInit [])) :=
  ⟨peInit_preserves, rfl, rfl, rfl⟩

/-- C10 witness: persistence of the user binding `x` through the
re-initialization performed by the next default-environment run. -/
theorem C10_default_environment_shared_witness :
    envLookup (peInit (envSet (peInit []) ("x") (.int 5))) ("x") = some (.int 5) :=
  C10_default_environment_shared.1 (envSet (peInit []) ("x") (.int 5)) ("x") (.int 5)
    (by decide) rfl
